import Mathlib

/-!
Shallow embedding of the action-compilation slice of `calm-dsl`
(`src/calm/dsl/builtins/models/action.py`): source extraction and
indentation normalization, the call/assignment visitor (modelled from the
spec, because `node_visitor.py` is not among the sources), edge inference
between stages, DAG and runbook assembly, user/system/fragment
classification, the caching descriptor `action.__get__`, and
`ActionType.assign_targets`.
-/

namespace CalmDSL

/-! ### Source extraction (`action.__get__`, lines 93-104)

The Python code works on one string; here a source text is its list of
lines (each a list of characters).  The whole-text operation
`src.replace("\t", "    ")` commutes with splitting on newlines because a
tab is not a newline, so it is modelled line by line. -/

/-- Line 93, `src.replace("\t", "    ")` on one line: every horizontal tab
becomes four spaces. -/
def replaceTab (l : List Char) : List Char :=
  l.flatMap fun c => if c = '\t' then [' ', ' ', ' ', ' '] else [c]

/-- Python `str.rstrip(" ")`: remove trailing space characters. -/
def rstripSpaces : List Char → List Char
  | [] => []
  | c :: rest =>
    match rstripSpaces rest with
    | [] => if c = ' ' then [] else [c]
    | d :: r => c :: d :: r

/-- Python `str.split(" ")`: split at every single space; adjacent
separators produce empty fields, and the empty string yields one empty
field. -/
def splitSpaces : List Char → List (List Char)
  | [] => [[]]
  | c :: rest =>
    if c = ' ' then [] :: splitSpaces rest
    else (c :: (splitSpaces rest).headD []) :: (splitSpaces rest).tail

/-- Python `list.count("")` over the fields produced by `splitSpaces`. -/
def countEmpty (ls : List (List Char)) : Nat :=
  ls.countP (·.isEmpty)

/-- Line 100: `padding = src.split("\n")[0].rstrip(" ").split(" ").count("")`,
applied to the (tab-replaced) first line. -/
def padding (firstLine : List Char) : Nat :=
  countEmpty (splitSpaces (rstripSpaces firstLine))

/-- Lines 93-104: replace tabs, compute the padding from the first
(decorator) line, drop that line, and slice `line[padding:]` off every
remaining line.  Python slicing is total: a line shorter than `padding`
silently becomes empty. -/
def getSource (src : List (List Char)) : List (List Char) :=
  match src.map replaceTab with
  | [] => []
  | first :: rest => rest.map (·.drop (padding first))

/-- Number of leading space characters of a line.  This is the quantity the
specification's wording refers to; it is compared against `padding`. -/
def leadingSpaces (l : List Char) : Nat :=
  (l.takeWhile (· == ' ')).length

/-- No two adjacent characters of the line are both spaces. -/
def noAdjSpace : List Char → Bool
  | a :: b :: rest => !(a == ' ' && b == ' ') && noAdjSpace (b :: rest)
  | _ => true

/-! ### Data model (task, stage, variable) -/

/-- A task produced from a recognized call expression.  `ref` models the
generated unique reference (`get_ref()`), `payload` the opaque output of
the resolved constructor, and `target_any_local_reference` the optional
execution target. -/
structure TaskC where
  ref : Nat
  payload : Nat := 0
  target_any_local_reference : Option Nat := none
  deriving DecidableEq, Inhabited

/-- One entry of the visitor's `task_list`: either a single task or a list
of tasks from a parallel block (the code distinguishes the two with
`isinstance(x, list)`, lines 119-122). -/
inductive Stage where
  | single (t : TaskC)
  | par (ts : List TaskC)
  deriving DecidableEq

/-- The tasks held by a stage. -/
def stageTasks : Stage → List TaskC
  | .single t => [t]
  | .par ts => ts

/-- A named variable captured from a top-level assignment. -/
structure Variable where
  name : String
  value : Nat
  deriving DecidableEq, Inhabited

/-- A task factory reachable through the captured namespace: the opaque
payload its call produces and an optional explicitly supplied execution
target. -/
structure Factory where
  payload : Nat := 0
  target : Option Nat := none
  deriving DecidableEq

/-! ### Call/assignment visitor

Modelled from the spec: `GetCallNodes` lives in
`calm/dsl/builtins/models/node_visitor.py`, which is not among the
sources.  Per spec section 4.3 a recognized call expression appends one
fresh task and one single-task stage; an assignment additionally records a
variable; a parallel block collects the tasks of its statements into one
stage; a callee absent from the namespace raises `NodeVisitError`.  Fresh
unique references are modelled by a counter. -/

/-- A statement usable inside a parallel block: a bare call or an
assignment whose right-hand side is a call. -/
inductive PStmt where
  | call (callee : String)
  | assign (varName : String) (callee : String)
  deriving DecidableEq

/-- A recognized top-level statement: a simple statement or a parallel
block. -/
inductive Stmt where
  | simple (p : PStmt)
  | parallel (body : List PStmt)
  deriving DecidableEq

/-- The callee name of a statement. -/
def PStmt.callee : PStmt → String
  | .call c => c
  | .assign _ c => c

/-- The error raised by visitation when a callee does not resolve. -/
inductive VisitError where
  | nodeVisitError (callee : String)
  deriving DecidableEq

/-- The visitor's running state: `get_objects()` returns
`(tasks, variables, task_list)`; `ctr` models the fresh-reference
generator. -/
structure VisitAcc where
  tasks : List TaskC := []
  «variables» : List (String × Variable) := []
  task_list : List Stage := []
  ctr : Nat := 0
  deriving DecidableEq

/-- Build the task for a resolved factory at the next fresh reference. -/
def mkTask (f : Factory) (n : Nat) : TaskC :=
  { ref := n, payload := f.payload, target_any_local_reference := f.target }

/-- Resolve a callee against the captured namespace; an unknown name is a
`NodeVisitError` (spec section 4.3, rule 4). -/
def resolveCall (ns : String → Option Factory) (c : String) (n : Nat) :
    Except VisitError TaskC :=
  match ns c with
  | none => .error (.nodeVisitError c)
  | some f => .ok (mkTask f n)

/-- Python-dict insertion: overwriting keeps the position, a new key is
appended. -/
def upsert (vars : List (String × Variable)) (k : String) (v : Variable) :
    List (String × Variable) :=
  if vars.any (·.1 == k) then
    vars.map fun kv => if kv.1 == k then (k, v) else kv
  else vars ++ [(k, v)]

/-- The variable binding recorded by a statement, if any (spec section
4.3, rule 2). -/
def recordVar (vars : List (String × Variable)) (p : PStmt) (t : TaskC) :
    List (String × Variable) :=
  match p with
  | .call _ => vars
  | .assign v _ => upsert vars v { name := v, value := t.ref }

/-- Visit the statements of one parallel block (spec section 4.3, rule 3):
each statement is handled by rules 1-2 and the tasks are collected. -/
def visitPList (ns : String → Option Factory) :
    List PStmt → Nat → List (String × Variable) →
    Except VisitError (List TaskC × List (String × Variable) × Nat)
  | [], n, vars => .ok ([], vars, n)
  | p :: ps, n, vars =>
    match resolveCall ns p.callee n with
    | .error e => .error e
    | .ok t =>
      match visitPList ns ps (n + 1) (recordVar vars p t) with
      | .error e => .error e
      | .ok (ts, vs, m) => .ok (t :: ts, vs, m)

/-- Visit the top-level statements in document order (spec section 4.3,
rules 1-4). -/
def visitStmts (ns : String → Option Factory) :
    List Stmt → VisitAcc → Except VisitError VisitAcc
  | [], acc => .ok acc
  | .simple p :: ss, acc =>
    match resolveCall ns p.callee acc.ctr with
    | .error e => .error e
    | .ok t =>
      visitStmts ns ss
        { acc with
          tasks := acc.tasks ++ [t]
          «variables» := recordVar acc.«variables» p t
          task_list := acc.task_list ++ [.single t]
          ctr := acc.ctr + 1 }
  | .parallel ps :: ss, acc =>
    match visitPList ns ps acc.ctr acc.«variables» with
    | .error e => .error e
    | .ok (ts, vs, m) =>
      visitStmts ns ss
        { acc with
          tasks := acc.tasks ++ ts
          «variables» := vs
          task_list := acc.task_list ++ [.par ts]
          ctr := m }

/-! ### Edge inference (`action.__get__`, lines 117-125) -/

/-- Lines 117-125: for every adjacent pair of `task_list`, emit one edge
from every task of the first member to every task of the second. -/
def mkEdges (task_list : List Stage) : List (Nat × Nat) :=
  (task_list.zip task_list.tail).flatMap fun p =>
    (stageTasks p.1).flatMap fun ft =>
      (stageTasks p.2).map fun tt => (ft.ref, tt.ref)

/-! ### DAG, runbook, compiled action (`action.__get__`, lines 127-169) -/

/-- The DAG task built by `dag(...)` at lines 128-135. -/
structure DagTask where
  name : String
  child_tasks : List TaskC
  edges : List (Nat × Nat)
  target_any_local_reference : Option Nat
  ref : Nat
  deriving DecidableEq, Inhabited

/-- One entry of a runbook's task list: the DAG or an individual task. -/
inductive RBTask where
  | dagT (d : DagTask)
  | taskT (t : TaskC)
  deriving DecidableEq

/-- A runbook (lines 137-140): main-task reference, task list, variables. -/
structure RunbookC where
  name : String := ""
  main_task_local_reference : Option Nat := none
  tasks : List RBTask := []
  «variables» : List Variable := []
  deriving DecidableEq, Inhabited

/-- The compiled action entity created at lines 156-165. -/
structure ActionC where
  name : String := ""
  description : String := ""
  critical : Bool := false
  type : String := "user"
  runbook : RunbookC := {}
  deriving DecidableEq, Inhabited

/-- The attributes of the owning entity `cls` that `action.__get__`
consults: `get_task_target()`, `__has_dag_target__`, and the two lookup
tables for system and fragment action names. -/
structure ClsInfo where
  task_target : Option Nat := none
  __has_dag_target__ : Bool := true
  ALLOWED_SYSTEM_ACTIONS : List (String × String) := []
  ALLOWED_FRAGMENT_ACTIONS : List (String × String) := []

/-- Python `str.lower()`. -/
def strLower (s : String) : String :=
  ⟨s.data.map Char.toLower⟩

/-- Python `str.startswith(pre)`. -/
def strStartsWith (s pre : String) : Bool :=
  pre.data.isPrefixOf s.data

/-- Python `str.endswith(suf)`. -/
def strEndsWith (s suf : String) : Bool :=
  suf.data.isSuffixOf s.data

/-- Lines 142-154: classify the action from the lowercased function name
against the two lookup tables; the result is the pair
`(ACTION_TYPE, action_name)`. -/
def classifyAction (cls : ClsInfo) (action_name : String) : String × String :=
  let func_name := strLower action_name
  if strStartsWith func_name "__" && strEndsWith func_name "__" then
    match cls.ALLOWED_SYSTEM_ACTIONS.lookup func_name with
    | some n => ("system", n)
    | none =>
      match cls.ALLOWED_FRAGMENT_ACTIONS.lookup func_name with
      | some n => ("fragment", n)
      | none => ("user", action_name)
  else ("user", action_name)

/-- The per-decorator state of the `action` descriptor (`__init__`, lines
55-71).  `visit_count` is instrumentation only: it counts pipeline
executions, mirroring the spec's side-effect counter, and is read by no
definition. -/
structure ActionDescriptor where
  action_name : String := ""
  action_description : String := ""
  runbook_name : String := ""
  dag_name : String := ""
  dag_ref : Nat := 0
  user_runbook : RunbookC := {}
  __parsed__ : Bool := false
  user_action : Option ActionC := none
  user_dag : Option DagTask := none
  __exception__ : Option VisitError := none
  visit_count : Nat := 0
  deriving DecidableEq

/-- Lines 127-135: build the DAG from the discovered tasks and the
inferred edges; its target is the class target unless
`__has_dag_target__` is false. -/
def buildDag (cls : ClsInfo) (s : ActionDescriptor) (acc : VisitAcc) : DagTask :=
  { name := s.dag_name
    child_tasks := acc.tasks
    edges := mkEdges acc.task_list
    target_any_local_reference :=
      if cls.__has_dag_target__ then cls.task_target else none
    ref := s.dag_ref }

/-- Lines 137-140: point the runbook at the DAG, set its task list to
`[dag] + tasks`, and its variables to the dict's values. -/
def buildRunbook (cls : ClsInfo) (s : ActionDescriptor) (acc : VisitAcc) : RunbookC :=
  { s.user_runbook with
    main_task_local_reference := some (buildDag cls s acc).ref
    tasks := .dagT (buildDag cls s acc) :: acc.tasks.map .taskT
    «variables» := acc.«variables».map (·.2) }

/-- Lines 142-165: classify and create the compiled action. -/
def buildAction (cls : ClsInfo) (s : ActionDescriptor) (acc : VisitAcc) : ActionC :=
  { name := (classifyAction cls s.action_name).2
    description := s.action_description
    critical := (classifyAction cls s.action_name).1 == "system"
    type := (classifyAction cls s.action_name).1
    runbook := buildRunbook cls s acc }

/-- `action.__get__` (lines 76-169): return the cached action when
`__parsed__` is set; otherwise run the pipeline, record a visitation error
on the instance and re-raise it, or assemble dag, runbook and action,
cache them and set `__parsed__`. -/
def action_get (cls : ClsInfo) (ns : String → Option Factory)
    (body : List Stmt) (s : ActionDescriptor) :
    Except VisitError ActionC × ActionDescriptor :=
  if s.__parsed__ then (.ok (s.user_action.getD default), s)
  else
    let s₁ := { s with visit_count := s.visit_count + 1 }
    match visitStmts ns body {} with
    | .error e => (.error e, { s₁ with __exception__ := some e })
    | .ok acc =>
      let act := buildAction cls s₁ acc
      (.ok act,
        { s₁ with
          user_runbook := buildRunbook cls s₁ acc
          user_dag := some (buildDag cls s₁ acc)
          user_action := some act
          __parsed__ := true })

/-! ### `ActionType.assign_targets` (lines 23-26) -/

/-- The execution target of a runbook task-list entry. -/
def RBTask.target : RBTask → Option Nat
  | .dagT d => d.target_any_local_reference
  | .taskT t => t.target_any_local_reference

/-- Overwrite the execution target of a runbook task-list entry. -/
def RBTask.setTarget : RBTask → Option Nat → RBTask
  | .dagT d, v => .dagT { d with target_any_local_reference := v }
  | .taskT t, v => .taskT { t with target_any_local_reference := v }

/-- Lines 23-26: for every task of the runbook whose target is unset,
assign the parent entity's task target. -/
def assign_targets (rb : RunbookC) (parent_target : Option Nat) : RunbookC :=
  { rb with
    tasks := rb.tasks.map fun t =>
      if t.target.isSome then t else t.setTarget parent_target }

/-! ### Derived notions used to state C1, C5 and C6 -/

/-- The tasks created for a list of callees starting at fresh reference
`n`: one task per resolvable callee, consecutive references. -/
def freshTasks (ns : String → Option Factory) : List String → Nat → List TaskC
  | [], _ => []
  | c :: cs, n =>
    (match ns c with
     | some f => [mkTask f n]
     | none => []) ++ freshTasks ns cs (n + 1)

/-- The chain of edges linking consecutive tasks of a list. -/
def pairEdges : List TaskC → List (Nat × Nat)
  | a :: b :: rest => (a.ref, b.ref) :: pairEdges (b :: rest)
  | _ => []

/-- Every task of the first stage has a smaller reference than every task
of the second. -/
def StageLT (s₁ s₂ : Stage) : Prop :=
  ∀ t ∈ stageTasks s₁, ∀ u ∈ stageTasks s₂, t.ref < u.ref

/-- Invariant of the visitor state: stage members are discovered tasks,
their references are below the fresh counter, and later stages hold
strictly larger references. -/
structure VisitInv (acc : VisitAcc) : Prop where
  mem : ∀ st ∈ acc.task_list, ∀ t ∈ stageTasks st, t ∈ acc.tasks
  bound : ∀ st ∈ acc.task_list, ∀ t ∈ stageTasks st, t.ref < acc.ctr
  sorted : acc.task_list.Pairwise StageLT

/-- A path through the edge list: consecutive vertices joined by edges. -/
def IsPath (edges : List (Nat × Nat)) : Nat → List Nat → Nat → Prop
  | a, [], b => (a, b) ∈ edges
  | a, c :: cs, b => (a, c) ∈ edges ∧ IsPath edges c cs b

/-! ### Witness fixtures: concrete inputs used by the witness theorems. -/

def nsNoneW : String → Option Factory := fun _ => none

def tW (n : Nat) : TaskC := { ref := n }

def d1W : DagTask :=
  { name := "", child_tasks := [tW 0, tW 1, tW 2], edges := [(0, 1), (1, 2)],
    target_any_local_reference := none, ref := 0 }

def rb1W : RunbookC :=
  { main_task_local_reference := some 0,
    tasks := [.dagT d1W, .taskT (tW 0), .taskT (tW 1), .taskT (tW 2)] }

def act1W : ActionC := { name := "act", type := "user", runbook := rb1W }

def st1W : ActionDescriptor :=
  { action_name := "act", user_runbook := rb1W, __parsed__ := true,
    user_action := some act1W, user_dag := some d1W, visit_count := 1 }

def body5W : List Stmt :=
  [.simple (.call "a"), .parallel [.call "b", .call "c"], .simple (.call "d")]

def d5W : DagTask :=
  { name := "", child_tasks := [tW 0, tW 1, tW 2, tW 3],
    edges := [(0, 1), (0, 2), (1, 3), (2, 3)],
    target_any_local_reference := none, ref := 0 }

def rb5W : RunbookC :=
  { main_task_local_reference := some 0,
    tasks := [.dagT d5W, .taskT (tW 0), .taskT (tW 1), .taskT (tW 2), .taskT (tW 3)] }

def act5W : ActionC := { name := "act", type := "user", runbook := rb5W }

def st5W : ActionDescriptor :=
  { action_name := "act", user_runbook := rb5W, __parsed__ := true,
    user_action := some act5W, user_dag := some d5W, visit_count := 1 }

def body6W : List Stmt := [.simple (.call "a"), .parallel [.call "b", .call "c"]]

def d6W : DagTask :=
  { name := "", child_tasks := [tW 0, tW 1, tW 2], edges := [(0, 1), (0, 2)],
    target_any_local_reference := none, ref := 0 }

def rb6W : RunbookC :=
  { main_task_local_reference := some 0,
    tasks := [.dagT d6W, .taskT (tW 0), .taskT (tW 1), .taskT (tW 2)] }

def act6W : ActionC := { name := "act", type := "user", runbook := rb6W }

def st6W : ActionDescriptor :=
  { action_name := "act", user_runbook := rb6W, __parsed__ := true,
    user_action := some act6W, user_dag := some d6W, visit_count := 1 }

def rb9w : RunbookC :=
  { name := "rb", tasks := [.taskT { ref := 0, target_any_local_reference := some 5 },
                            .taskT { ref := 1 }] }

def cls10w : ClsInfo :=
  { ALLOWED_SYSTEM_ACTIONS := [("restart", "SYSR"), ("__create__", "SYS")],
    ALLOWED_FRAGMENT_ACTIONS := [("__create__", "FRAG")] }

def nsAllW : String → Option Factory := fun _ => some {}

def s0W : ActionDescriptor := { action_name := "act" }

def dagW : DagTask :=
  { name := "", child_tasks := [{ ref := 0 }], edges := [],
    target_any_local_reference := none, ref := 0 }

def rbW : RunbookC :=
  { main_task_local_reference := some 0,
    tasks := [.dagT dagW, .taskT { ref := 0 }] }

def actW : ActionC := { name := "act", type := "user", runbook := rbW }

def s1W : ActionDescriptor :=
  { action_name := "act", user_runbook := rbW, __parsed__ := true,
    user_action := some actW, user_dag := some dagW, visit_count := 1 }

/-! ### Helper lemmas -/

theorem RBTask.target_setTarget (e : RBTask) (v : Option Nat) :
    (e.setTarget v).target = v := by
  cases e <;> rfl

theorem RBTask.setTarget_setTarget (e : RBTask) (v w : Option Nat) :
    (e.setTarget v).setTarget w = e.setTarget w := by
  cases e <;> rfl

theorem classifyAction_fst (cls : ClsInfo) (n : String) :
    (classifyAction cls n).1 = "user" ∨ (classifyAction cls n).1 = "system" ∨
      (classifyAction cls n).1 = "fragment" := by
  by_cases h : (strStartsWith (strLower n) "__" && strEndsWith (strLower n) "__") = true
  · rcases hs : cls.ALLOWED_SYSTEM_ACTIONS.lookup (strLower n) with _ | m <;>
      rcases hf : cls.ALLOWED_FRAGMENT_ACTIONS.lookup (strLower n) with _ | m' <;>
      simp [classifyAction, h, hs, hf]
  · simp [classifyAction, h]

theorem action_get_ok_facts {cls : ClsInfo} {ns : String → Option Factory}
    {body : List Stmt} {s : ActionDescriptor} {a : ActionC} {s₁ : ActionDescriptor}
    (hp : s.__parsed__ = false)
    (h : action_get cls ns body s = (.ok a, s₁)) :
    ∃ acc, visitStmts ns body {} = .ok acc ∧
      a = buildAction cls s acc ∧
      s₁.__parsed__ = true ∧ s₁.user_action = some a ∧
      s₁.visit_count = s.visit_count + 1 := by
  unfold action_get at h
  rw [hp] at h
  simp only [Bool.false_eq_true, if_false] at h
  cases hv : visitStmts ns body {} with
  | error e => rw [hv] at h; simp at h
  | ok acc =>
    rw [hv] at h
    simp only [Prod.mk.injEq, Except.ok.injEq] at h
    obtain ⟨ha, hs₁⟩ := h
    refine ⟨acc, rfl, ?_, ?_, ?_, ?_⟩
    · rw [← ha]; rfl
    · rw [← hs₁]
    · rw [← hs₁, ← ha]
    · rw [← hs₁]

/-! ### Claim theorems -/

/-- C9: `assign_targets` gives the parent entity's default target exactly
to the runbook tasks whose target is unset, keeps every explicitly set
target, and modifies no other field of any task (and no other field of the
runbook). -/
theorem c9_assign_targets_frame (rb : RunbookC) (p : Option Nat) :
    (assign_targets rb p).name = rb.name ∧
    (assign_targets rb p).main_task_local_reference = rb.main_task_local_reference ∧
    (assign_targets rb p).«variables» = rb.«variables» ∧
    (assign_targets rb p).tasks.length = rb.tasks.length ∧
    ∀ (i : Nat) (e : RBTask), rb.tasks[i]? = some e →
      (assign_targets rb p).tasks[i]? =
        some (if e.target.isSome then e else e.setTarget p) ∧
      (if e.target.isSome then e else e.setTarget p).target =
        (if e.target.isSome then e.target else p) ∧
      (if e.target.isSome then e else e.setTarget p).setTarget none =
        e.setTarget none := by
  refine ⟨rfl, rfl, rfl, by simp [assign_targets], ?_⟩
  intro i e he
  refine ⟨?_, ?_, ?_⟩
  · simp [assign_targets, List.getElem?_map, he]
  · by_cases h : e.target.isSome <;> simp [h, RBTask.target_setTarget]
  · by_cases h : e.target.isSome <;> simp [h, RBTask.setTarget_setTarget]

theorem c9_witness :
    (assign_targets rb9w (some 9)).tasks[0]? =
      some (.taskT { ref := 0, target_any_local_reference := some 5 }) ∧
    (assign_targets rb9w (some 9)).tasks[1]? =
      some (.taskT { ref := 1, target_any_local_reference := some 9 }) ∧
    (assign_targets rb9w (some 9)).«variables» = rb9w.«variables» := by
  have h := c9_assign_targets_frame rb9w (some 9)
  refine ⟨?_, ?_, h.2.2.1⟩
  · simpa [RBTask.target] using
      (h.2.2.2.2 0 (.taskT { ref := 0, target_any_local_reference := some 5 }) rfl).1
  · simpa [RBTask.target, RBTask.setTarget] using
      (h.2.2.2.2 1 (.taskT { ref := 1 }) rfl).1

/-- C10: classification is attempted only for lowercased names that start
and end with a double underscore; any other name is classified "user" and
keeps the function's own name whatever the two lookup tables contain, and
for double-underscore names the system table takes priority over the
fragment table. -/
theorem c10_dunder_classification (cls : ClsInfo) (name : String) :
    (¬ (strStartsWith (strLower name) "__" && strEndsWith (strLower name) "__") = true →
      classifyAction cls name = ("user", name)) ∧
    (∀ n, (strStartsWith (strLower name) "__" && strEndsWith (strLower name) "__") = true →
      cls.ALLOWED_SYSTEM_ACTIONS.lookup (strLower name) = some n →
      classifyAction cls name = ("system", n)) := by
  constructor
  · intro h
    simp [classifyAction, h]
  · intro n h hl
    simp [classifyAction, h, hl]

theorem c10_witness :
    classifyAction cls10w "restart" = ("user", "restart") ∧
    classifyAction cls10w "__create__" = ("system", "SYS") :=
  ⟨(c10_dunder_classification cls10w "restart").1 (by decide),
   (c10_dunder_classification cls10w "__create__").2 "SYS" (by decide) (by decide)⟩

/-- C3: once a compilation has succeeded, every later access of the
accessor — whatever class, namespace or body the caller supplies — returns
the very cached compiled action with the descriptor state unchanged, so no
pipeline step runs again (the instrumentation counter stays at one run). -/
theorem c3_cache_idempotent {cls : ClsInfo} {ns : String → Option Factory}
    {body : List Stmt} {s : ActionDescriptor} {a : ActionC} {s₁ : ActionDescriptor}
    (hp : s.__parsed__ = false)
    (h : action_get cls ns body s = (.ok a, s₁)) :
    s₁.visit_count = s.visit_count + 1 ∧
    ∀ (cls₂ : ClsInfo) (ns₂ : String → Option Factory) (body₂ : List Stmt),
      action_get cls₂ ns₂ body₂ s₁ = (.ok a, s₁) := by
  obtain ⟨acc, hv, ha, hparsed, hua, hvc⟩ := action_get_ok_facts hp h
  refine ⟨hvc, fun cls₂ ns₂ body₂ => ?_⟩
  unfold action_get
  rw [hparsed, hua]
  simp

/-- C8: the compiled action's classification is exactly one of "user",
"system" or "fragment", obtained by matching the function name against the
two caller-declared lookup tables, and its criticality flag is true
exactly when the classification is "system". -/
theorem c8_action_classification {cls : ClsInfo} {ns : String → Option Factory}
    {body : List Stmt} {s : ActionDescriptor} {a : ActionC} {s₁ : ActionDescriptor}
    (hp : s.__parsed__ = false)
    (h : action_get cls ns body s = (.ok a, s₁)) :
    (a.type = "user" ∨ a.type = "system" ∨ a.type = "fragment") ∧
    (a.critical = true ↔ a.type = "system") ∧
    a.type = (classifyAction cls s.action_name).1 ∧
    a.name = (classifyAction cls s.action_name).2 := by
  obtain ⟨acc, hv, ha, _⟩ := action_get_ok_facts hp h
  subst ha
  refine ⟨classifyAction_fst cls s.action_name, ?_, rfl, rfl⟩
  simp [buildAction]

theorem c3_witness :
    s0W.__parsed__ = false ∧
    action_get {} nsAllW [Stmt.simple (.call "a")] s0W = (.ok actW, s1W) ∧
    action_get {} nsAllW [Stmt.simple (.call "a")] s1W = (.ok actW, s1W) := by
  have h : action_get {} nsAllW [Stmt.simple (.call "a")] s0W = (.ok actW, s1W) := by
    rfl
  exact ⟨rfl, h, (c3_cache_idempotent rfl h).2 {} nsAllW [Stmt.simple (.call "a")]⟩

def cls8w : ClsInfo := { ALLOWED_SYSTEM_ACTIONS := [("__create__", "create")] }

def s8W : ActionDescriptor := { action_name := "__create__" }

def act8W : ActionC :=
  { name := "create", critical := true, type := "system", runbook := rbW }

def s8W' : ActionDescriptor :=
  { action_name := "__create__", user_runbook := rbW, __parsed__ := true,
    user_action := some act8W, user_dag := some dagW, visit_count := 1 }

theorem c8_witness :
    action_get cls8w nsAllW [Stmt.simple (.call "a")] s8W = (.ok act8W, s8W') ∧
    (act8W.type = "user" ∨ act8W.type = "system" ∨ act8W.type = "fragment") ∧
    (act8W.critical = true ↔ act8W.type = "system") := by
  have h : action_get cls8w nsAllW [Stmt.simple (.call "a")] s8W = (.ok act8W, s8W') := by
    rfl
  exact ⟨h, (c8_action_classification rfl h).1, (c8_action_classification rfl h).2.1⟩

/-! ### Lemmas about the padding computation (for C2 and C7) -/

theorem splitSpaces_ne_nil (s : List Char) : splitSpaces s ≠ [] := by
  cases s with
  | nil => simp [splitSpaces]
  | cons c rest => by_cases h : c = ' ' <;> simp [splitSpaces, h]

theorem splitSpaces_cons_space (rest : List Char) :
    splitSpaces (' ' :: rest) = [] :: splitSpaces rest := by
  simp [splitSpaces]

theorem noAdjSpace_tail {c : Char} {rest : List Char}
    (h : noAdjSpace (c :: rest) = true) : noAdjSpace rest = true := by
  cases rest with
  | nil => rfl
  | cons d r =>
    simp only [noAdjSpace, Bool.and_eq_true] at h
    exact h.2

theorem noAdjSpace_head {rest : List Char}
    (h : noAdjSpace (' ' :: rest) = true) : rest.head? ≠ some ' ' := by
  cases rest with
  | nil => simp
  | cons d r =>
    simp only [noAdjSpace, Bool.and_eq_true, Bool.not_eq_true'] at h
    intro hd
    simp only [List.head?_cons, Option.some.injEq] at hd
    subst hd
    simp at h

theorem countEmpty_cons (l : List Char) (ls : List (List Char)) :
    countEmpty (l :: ls) = (if l = [] then 1 else 0) + countEmpty ls := by
  simp only [countEmpty, List.countP_cons, List.isEmpty_iff]
  by_cases h : l = []
  · simp [h]
    omega
  · simp [h]

theorem countEmpty_splitSpaces (s : List Char) (hAdj : noAdjSpace s = true)
    (hLast : s.getLast? ≠ some ' ') :
    countEmpty (splitSpaces s) =
      (if s.head? = some ' ' then 1 else 0) + (if s = [] then 1 else 0) := by
  induction s with
  | nil => simp [splitSpaces, countEmpty]
  | cons c rest ih =>
    rw [if_neg (List.cons_ne_nil c rest), List.head?_cons]
    by_cases hc : c = ' '
    · subst hc
      rw [if_pos rfl]
      have hrne : rest ≠ [] := by
        rintro rfl
        simp at hLast
      have hrl : rest.getLast? ≠ some ' ' := by
        cases rest with
        | nil => exact absurd rfl hrne
        | cons d r => rwa [List.getLast?_cons_cons] at hLast
      have hrh : rest.head? ≠ some ' ' := noAdjSpace_head hAdj
      have ihr := ih (noAdjSpace_tail hAdj) hrl
      rw [if_neg hrh, if_neg hrne] at ihr
      rw [splitSpaces_cons_space, countEmpty_cons, if_pos rfl, ihr]
    · rw [if_neg (by simp [hc] : ¬ (some c = some ' '))]
      obtain ⟨h0, t0, hsplit⟩ : ∃ h0 t0, splitSpaces rest = h0 :: t0 := by
        cases hs : splitSpaces rest with
        | nil => exact absurd hs (splitSpaces_ne_nil rest)
        | cons a b => exact ⟨a, b, rfl⟩
      have hstep : splitSpaces (c :: rest) = (c :: h0) :: t0 := by
        simp [splitSpaces, hc, hsplit]
      rw [hstep, countEmpty_cons, if_neg (List.cons_ne_nil c h0)]
      cases rest with
      | nil =>
        have : ([[]] : List (List Char)) = h0 :: t0 := hsplit
        have ht0 : t0 = [] := by
          injection this with _ h
          exact h.symm
        subst ht0
        simp [countEmpty]
      | cons d r =>
        have hrl : (d :: r).getLast? ≠ some ' ' := by
          rwa [List.getLast?_cons_cons] at hLast
        have ihr := ih (noAdjSpace_tail hAdj) hrl
        rw [if_neg (List.cons_ne_nil d r), List.head?_cons] at ihr
        by_cases hd : d = ' '
        · subst hd
          rw [if_pos rfl] at ihr
          rw [splitSpaces_cons_space] at hsplit
          have h0nil : h0 = [] := by
            injection hsplit with h _
            exact h.symm
          have ht0 : t0 = splitSpaces r := by
            injection hsplit with _ h
            exact h.symm
          subst h0nil
          rw [splitSpaces_cons_space, countEmpty_cons, if_pos rfl] at ihr
          rw [ht0]
          omega
        · rw [if_neg (by simp [hd] : ¬ (some d = some ' '))] at ihr
          rw [hsplit, countEmpty_cons] at ihr
          omega

theorem countEmpty_splitSpaces_leading (s : List Char) :
    countEmpty (splitSpaces s) =
      leadingSpaces s + countEmpty (splitSpaces (s.dropWhile (· == ' '))) := by
  induction s with
  | nil => simp [leadingSpaces]
  | cons c rest ih =>
    by_cases hc : c = ' '
    · subst hc
      have hdrop : List.dropWhile (· == ' ') (' ' :: rest) =
          List.dropWhile (· == ' ') rest := by
        simp [List.dropWhile_cons]
      have hlead : leadingSpaces (' ' :: rest) = 1 + leadingSpaces rest := by
        simp [leadingSpaces, List.takeWhile_cons]
        omega
      rw [splitSpaces_cons_space, countEmpty_cons, if_pos rfl, hdrop, hlead, ih]
      omega
    · have hb : (c == ' ') = false := by simp [hc]
      have hdrop : List.dropWhile (· == ' ') (c :: rest) = c :: rest := by
        simp [List.dropWhile_cons, hb]
      have hlead : leadingSpaces (c :: rest) = 0 := by
        simp [leadingSpaces, List.takeWhile_cons, hb]
      rw [hdrop, hlead]
      omega

theorem rstripSpaces_all_space (s : List Char) (h : ∀ c ∈ s, c = ' ') :
    rstripSpaces s = [] := by
  induction s with
  | nil => rfl
  | cons c rest ih =>
    have hc : c = ' ' := h c (by simp)
    have hr : rstripSpaces rest = [] := ih fun d hd => h d (by simp [hd])
    simp [rstripSpaces, hr, hc]

theorem rstripSpaces_eq_nil {s : List Char} (h : rstripSpaces s = []) :
    ∀ c ∈ s, c = ' ' := by
  induction s with
  | nil => simp
  | cons c rest ih =>
    cases hr : rstripSpaces rest with
    | cons e r => simp [rstripSpaces, hr] at h
    | nil =>
      intro d hd
      rcases List.mem_cons.mp hd with rfl | hd'
      · by_cases hc : d = ' '
        · exact hc
        · simp [rstripSpaces, hr, hc] at h
      · exact ih hr d hd'

theorem rstripSpaces_getLast (s : List Char) :
    (rstripSpaces s).getLast? ≠ some ' ' := by
  induction s with
  | nil => simp [rstripSpaces]
  | cons c rest ih =>
    cases hr : rstripSpaces rest with
    | nil =>
      by_cases hc : c = ' ' <;> simp [rstripSpaces, hr, hc]
    | cons d r =>
      have hstep : rstripSpaces (c :: rest) = c :: d :: r := by
        simp [rstripSpaces, hr]
      rw [hstep, List.getLast?_cons_cons]
      rw [hr] at ih
      exact ih

theorem takeWhile_rstripSpaces {s : List Char} (h : ∃ c ∈ s, c ≠ ' ') :
    (rstripSpaces s).takeWhile (· == ' ') = s.takeWhile (· == ' ') := by
  induction s with
  | nil => simp at h
  | cons c rest ih =>
    by_cases hc : c = ' '
    · subst hc
      have hrest : ∃ d ∈ rest, d ≠ ' ' := by
        rcases h with ⟨d, hd, hne⟩
        rcases List.mem_cons.mp hd with rfl | hd'
        · exact absurd rfl hne
        · exact ⟨d, hd', hne⟩
      have hne : rstripSpaces rest ≠ [] := by
        intro h0
        rcases hrest with ⟨d, hd, hne'⟩
        exact hne' (rstripSpaces_eq_nil h0 d hd)
      obtain ⟨d, r, hr⟩ : ∃ d r, rstripSpaces rest = d :: r := by
        cases hs : rstripSpaces rest with
        | nil => exact absurd hs hne
        | cons a b => exact ⟨a, b, rfl⟩
      have hstep : rstripSpaces (' ' :: rest) = ' ' :: d :: r := by
        simp [rstripSpaces, hr]
      rw [hstep, ← hr, List.takeWhile_cons, List.takeWhile_cons]
      simp only [beq_self_eq_true, if_pos]
      rw [ih hrest]
    · have hb : (c == ' ') = false := by simp [hc]
      have hlhs : (rstripSpaces (c :: rest)).takeWhile (· == ' ') = [] := by
        cases hr : rstripSpaces rest with
        | nil =>
          by_cases hcc : c = ' '
          · exact absurd hcc hc
          · simp [rstripSpaces, hr, hcc, List.takeWhile_cons, hb]
        | cons d r =>
          have hstep : rstripSpaces (c :: rest) = c :: d :: r := by
            simp [rstripSpaces, hr]
          simp [hstep, List.takeWhile_cons, hb]
      simp [hlhs, List.takeWhile_cons, hb]

theorem head_dropWhile_not (p : Char → Bool) (s : List Char) :
    ∀ c, ((s.dropWhile p).head? = some c) → p c = false := by
  induction s with
  | nil => simp
  | cons a rest ih =>
    intro c hc
    by_cases hp : p a
    · rw [List.dropWhile_cons, if_pos hp] at hc
      exact ih c hc
    · rw [List.dropWhile_cons, if_neg hp] at hc
      simp only [List.head?_cons, Option.some.injEq] at hc
      subst hc
      simpa using hp

theorem getLast_dropWhile (p : Char → Bool) (s : List Char)
    (h : s.dropWhile p ≠ []) :
    (s.dropWhile p).getLast? = s.getLast? := by
  induction s with
  | nil => simp at h
  | cons c rest ih =>
    by_cases hp : p c
    · rw [List.dropWhile_cons, if_pos hp] at h ⊢
      rw [ih h]
      have hrne : rest ≠ [] := by
        rintro rfl
        simp [List.dropWhile] at h
      cases rest with
      | nil => exact absurd rfl hrne
      | cons d r => rw [List.getLast?_cons_cons]
    · rw [List.dropWhile_cons, if_neg hp]

theorem padding_eq_leadingSpaces {l : List Char}
    (h1 : rstripSpaces l ≠ [])
    (h2 : noAdjSpace ((rstripSpaces l).dropWhile (· == ' ')) = true) :
    padding l = leadingSpaces l := by
  have hex : ∃ c ∈ l, c ≠ ' ' := by
    by_contra hall
    push_neg at hall
    exact h1 (rstripSpaces_all_space l hall)
  have hbody_ne : (rstripSpaces l).dropWhile (· == ' ') ≠ [] := by
    intro h0
    have hall := List.dropWhile_eq_nil_iff.mp h0
    have hml := List.getLast_mem h1
    have : (rstripSpaces l).getLast? = some ((rstripSpaces l).getLast h1) :=
      List.getLast?_eq_getLast _ h1
    have hsp := hall _ hml
    simp only [beq_iff_eq] at hsp
    exact rstripSpaces_getLast l (by rw [this, hsp])
  have hbody_head : ((rstripSpaces l).dropWhile (· == ' ')).head? ≠ some ' ' := by
    intro hh
    have := head_dropWhile_not (· == ' ') (rstripSpaces l) ' ' hh
    simp at this
  have hbody_last : ((rstripSpaces l).dropWhile (· == ' ')).getLast? ≠ some ' ' := by
    rw [getLast_dropWhile _ _ hbody_ne]
    exact rstripSpaces_getLast l
  have h0 := countEmpty_splitSpaces _ h2 hbody_last
  rw [if_neg hbody_head, if_neg hbody_ne] at h0
  have h2' := countEmpty_splitSpaces_leading (rstripSpaces l)
  rw [h0] at h2'
  have hlead : leadingSpaces (rstripSpaces l) = leadingSpaces l := by
    unfold leadingSpaces
    rw [takeWhile_rstripSpaces hex]
  unfold padding
  rw [h2', hlead]
  omega

/-- C7 (counterexample): the computed padding is not always the count of
leading spaces of the first line: for the decorator line `"@a  b"` (no
leading spaces, two adjacent interior spaces) the computation
`rstrip(" ").split(" ").count("")` yields 1, not 0. -/
theorem c7_counterexample :
    padding (replaceTab ['@', 'a', ' ', ' ', 'b']) ≠
      leadingSpaces (replaceTab ['@', 'a', ' ', ' ', 'b']) := by
  decide

/-- C7 (amended): extraction first replaces every horizontal tab by four
spaces, then computes the padding from the first line, drops that line and
slices the padding off every remaining line; the computed padding equals
the first line's count of leading spaces provided that line, stripped of
trailing spaces, is nonempty and its part after the leading spaces has no
two adjacent spaces (without the proviso the equality can fail, see the
counterexample). -/
theorem c7_extract_normalizes (first : List Char) (rest : List (List Char))
    (h1 : rstripSpaces (replaceTab first) ≠ [])
    (h2 : noAdjSpace ((rstripSpaces (replaceTab first)).dropWhile (· == ' ')) = true) :
    padding (replaceTab first) = leadingSpaces (replaceTab first) ∧
    getSource (first :: rest) =
      rest.map fun l => (replaceTab l).drop (leadingSpaces (replaceTab first)) := by
  have hp := padding_eq_leadingSpaces h1 h2
  refine ⟨hp, ?_⟩
  simp only [getSource, List.map_cons, List.map_map, hp]
  rfl

theorem c7_witness :
    rstripSpaces (replaceTab [' ', ' ', '@', 'a']) ≠ [] ∧
    noAdjSpace ((rstripSpaces (replaceTab [' ', ' ', '@', 'a'])).dropWhile (· == ' ')) = true ∧
    padding (replaceTab [' ', ' ', '@', 'a']) = leadingSpaces (replaceTab [' ', ' ', '@', 'a']) ∧
    getSource [[' ', ' ', '@', 'a'], [' ', ' ', 'x']] = [['x']] := by
  have h := c7_extract_normalizes [' ', ' ', '@', 'a'] [[' ', ' ', 'x']]
    (by decide) (by decide)
  refine ⟨by decide, by decide, h.1, ?_⟩
  rw [h.2]
  decide

/-- C2 (counterexample): for the source `["    @action", "xy"]` the body
line `"xy"` is shorter than the computed padding 4, yet normalization does
not fail — the code has no `MalformedSourceError` and Python slicing
`line[padding:]` is total — it silently produces the truncated (empty)
line. -/
theorem c2_counterexample :
    padding (replaceTab "    @action".toList) = 4 ∧
    "xy".toList.length < 4 ∧
    getSource ["    @action".toList, "xy".toList] = [[]] := by
  decide

/-- C2 (amended): every body line has its first `min P length` characters
removed — exactly its first `P` characters when it is at least `P` long —
and a body line shorter than `P` is silently truncated (to the empty
line); no error is raised. -/
theorem c2_truncation (first : List Char) (rest : List (List Char))
    (i : Nat) (l' : List Char)
    (h : (getSource (first :: rest))[i]? = some l') :
    ∃ l, rest[i]? = some l ∧
      l' = (replaceTab l).drop (padding (replaceTab first)) ∧
      l'.length = (replaceTab l).length - padding (replaceTab first) := by
  simp only [getSource, List.map_cons, List.map_map, List.getElem?_map,
    Option.map_eq_some'] at h
  obtain ⟨l, hl, rfl⟩ := h
  exact ⟨l, hl, rfl, List.length_drop _ _⟩

theorem c2_witness :
    (getSource ["    @action".toList, "xy".toList])[0]? = some [] ∧
    ∃ l, ["xy".toList][0]? = some l ∧
      ([] : List Char) = (replaceTab l).drop (padding (replaceTab "    @action".toList)) ∧
      ([] : List Char).length =
        (replaceTab l).length - padding (replaceTab "    @action".toList) := by
  refine ⟨by decide, c2_truncation _ _ 0 [] (by decide)⟩

/-! ### Lemmas about the visitor (for C1, C4, C5, C6) -/

theorem resolveCall_ok_ref {ns : String → Option Factory} {c : String} {n : Nat}
    {t : TaskC} (h : resolveCall ns c n = .ok t) : t.ref = n := by
  unfold resolveCall at h
  cases hns : ns c with
  | none => rw [hns] at h; exact absurd h (by simp)
  | some f =>
    rw [hns] at h
    injection h with h
    rw [← h]
    rfl

theorem freshTasks_length {ns : String → Option Factory} {cs : List String}
    (h : ∀ c ∈ cs, (ns c).isSome) (n : Nat) :
    (freshTasks ns cs n).length = cs.length := by
  induction cs generalizing n with
  | nil => rfl
  | cons c cs ih =>
    obtain ⟨f, hf⟩ := Option.isSome_iff_exists.mp (h c (by simp))
    simp [freshTasks, hf, ih (fun d hd => h d (by simp [hd]))]

theorem freshTasks_ref_bounds (ns : String → Option Factory) (cs : List String)
    (n : Nat) : ∀ t ∈ freshTasks ns cs n, n ≤ t.ref ∧ t.ref < n + cs.length := by
  induction cs generalizing n with
  | nil => simp [freshTasks]
  | cons c cs ih =>
    intro t ht
    cases hns : ns c with
    | none =>
      simp only [freshTasks, hns, List.nil_append] at ht
      have := ih (n + 1) t ht
      constructor
      · omega
      · simp only [List.length_cons]
        omega
    | some f =>
      simp only [freshTasks, hns, List.cons_append, List.nil_append] at ht
      rcases List.mem_cons.mp ht with rfl | ht'
      · refine ⟨le_refl _, ?_⟩
        simp [mkTask]
      · have := ih (n + 1) t ht'
        constructor
        · omega
        · simp only [List.length_cons]
          omega

theorem visitStmts_seq {ns : String → Option Factory} (calls : List String)
    (h : ∀ c ∈ calls, (ns c).isSome) (acc : VisitAcc) :
    visitStmts ns (calls.map fun c => Stmt.simple (.call c)) acc =
      .ok { acc with
        tasks := acc.tasks ++ freshTasks ns calls acc.ctr
        task_list := acc.task_list ++ (freshTasks ns calls acc.ctr).map .single
        ctr := acc.ctr + calls.length } := by
  induction calls generalizing acc with
  | nil => simp [visitStmts, freshTasks]
  | cons c cs ih =>
    obtain ⟨f, hf⟩ := Option.isSome_iff_exists.mp (h c (by simp))
    have hcs : ∀ d ∈ cs, (ns d).isSome := fun d hd => h d (by simp [hd])
    simp only [List.map_cons, visitStmts, PStmt.callee, resolveCall, hf]
    rw [ih hcs]
    simp only [Except.ok.injEq, freshTasks, hf, recordVar, VisitAcc.mk.injEq,
      true_and, and_true]
    refine ⟨?_, ?_, ?_⟩
    · simp [List.append_assoc]
    · simp [List.append_assoc]
    · simp only [List.length_cons]
      omega

theorem mkEdges_single_stage (st : Stage) : mkEdges [st] = [] := rfl

theorem mkEdges_cons_cons (s₁ s₂ : Stage) (l : List Stage) :
    mkEdges (s₁ :: s₂ :: l) =
      ((stageTasks s₁).flatMap fun ft =>
        (stageTasks s₂).map fun tt => (ft.ref, tt.ref)) ++ mkEdges (s₂ :: l) := by
  simp [mkEdges]

theorem mkEdges_singles (ts : List TaskC) :
    mkEdges (ts.map .single) = pairEdges ts := by
  induction ts with
  | nil => rfl
  | cons a rest ih =>
    cases rest with
    | nil => rfl
    | cons b r =>
      simp only [List.map_cons] at ih ⊢
      rw [mkEdges_cons_cons]
      simp only [stageTasks, pairEdges]
      simp [ih]

theorem pairEdges_length (ts : List TaskC) :
    (pairEdges ts).length = ts.length - 1 := by
  induction ts with
  | nil => rfl
  | cons a rest ih =>
    cases rest with
    | nil => rfl
    | cons b r =>
      simp only [pairEdges, List.length_cons] at ih ⊢
      omega

theorem pairEdges_cons_cons (a b : TaskC) (r : List TaskC) :
    pairEdges (a :: b :: r) = (a.ref, b.ref) :: pairEdges (b :: r) := by
  simp [pairEdges]

theorem pairEdges_get (ts : List TaskC) (i : Nat) {ta tb : TaskC}
    (ha : ts[i]? = some ta) (hb : ts[i + 1]? = some tb) :
    (pairEdges ts)[i]? = some (ta.ref, tb.ref) := by
  induction ts generalizing i with
  | nil => simp at ha
  | cons a rest ih =>
    cases rest with
    | nil =>
      rw [List.getElem?_cons_succ] at hb
      simp at hb
    | cons b r =>
      cases i with
      | zero =>
        rw [List.getElem?_cons_zero, Option.some.injEq] at ha
        rw [List.getElem?_cons_succ, List.getElem?_cons_zero, Option.some.injEq] at hb
        subst ha
        subst hb
        rw [pairEdges_cons_cons, List.getElem?_cons_zero]
      | succ j =>
        rw [List.getElem?_cons_succ] at ha hb
        rw [pairEdges_cons_cons, List.getElem?_cons_succ]
        exact ih j ha hb

/-- C4: when visitation raises an error, the error is recorded on the
descriptor instance, propagates to the caller, nothing is cached
(`__parsed__` stays unset, no compiled action is stored), and the next
access runs the whole pipeline again, raising the same error. -/
theorem c4_visit_error_retries (cls : ClsInfo) (ns : String → Option Factory)
    (body : List Stmt) (s : ActionDescriptor) (e : VisitError)
    (hp : s.__parsed__ = false) (hna : s.user_action = none)
    (hv : visitStmts ns body {} = .error e) :
    ∃ s₁, action_get cls ns body s = (.error e, s₁) ∧
      s₁.__exception__ = some e ∧ s₁.__parsed__ = false ∧
      s₁.user_action = none ∧ s₁.visit_count = s.visit_count + 1 ∧
      ∃ s₂, action_get cls ns body s₁ = (.error e, s₂) ∧
        s₂.visit_count = s.visit_count + 2 := by
  have h1 : action_get cls ns body s =
      (.error e, { s with visit_count := s.visit_count + 1,
                          __exception__ := some e }) := by
    unfold action_get
    rw [hp]
    simp only [Bool.false_eq_true, if_false, hv]
  refine ⟨_, h1, rfl, hp, hna, rfl, ?_⟩
  have h2 : action_get cls ns body
      ({ s with visit_count := s.visit_count + 1, __exception__ := some e }) =
      (.error e, { s with visit_count := s.visit_count + 1 + 1,
                          __exception__ := some e }) := by
    have hp2 : ({ s with visit_count := s.visit_count + 1,
                          __exception__ := some e } :
                  ActionDescriptor).__parsed__ = false := hp
    unfold action_get
    rw [hp2]
    simp only [Bool.false_eq_true, if_false, hv]
  exact ⟨_, h2, rfl⟩

theorem c4_witness :
    visitStmts nsNoneW [Stmt.simple (.call "x")] {} =
      .error (.nodeVisitError "x") ∧
    ∃ s₁, action_get {} nsNoneW [Stmt.simple (.call "x")] s0W =
        (.error (.nodeVisitError "x"), s₁) ∧
      s₁.__exception__ = some (.nodeVisitError "x") ∧ s₁.__parsed__ = false ∧
      s₁.user_action = none ∧ s₁.visit_count = s0W.visit_count + 1 ∧
      ∃ s₂, action_get {} nsNoneW [Stmt.simple (.call "x")] s₁ =
          (.error (.nodeVisitError "x"), s₂) ∧
        s₂.visit_count = s0W.visit_count + 2 :=
  ⟨rfl, c4_visit_error_retries {} nsNoneW [Stmt.simple (.call "x")] s0W
    (.nodeVisitError "x") rfl rfl rfl⟩

/-- C1: for a body of `N` recognized sequential calls, compilation yields
`N` tasks, `N - 1` edges — edge `i` joining the reference of task `i` to
that of task `i + 1` in source order — and a runbook task list of length
`N + 1` holding the DAG first and then the `N` tasks. -/
theorem c1_sequential_compilation (cls : ClsInfo) (ns : String → Option Factory)
    (calls : List String) (s : ActionDescriptor) (a : ActionC)
    (s₁ : ActionDescriptor) (d : DagTask)
    (hres : ∀ c ∈ calls, (ns c).isSome)
    (hp : s.__parsed__ = false)
    (h : action_get cls ns (calls.map fun c => Stmt.simple (.call c)) s = (.ok a, s₁))
    (hd : a.runbook.tasks.head? = some (.dagT d)) :
    a.runbook.tasks = .dagT d :: d.child_tasks.map .taskT ∧
    d.child_tasks.length = calls.length ∧
    a.runbook.tasks.length = calls.length + 1 ∧
    d.edges.length = calls.length - 1 ∧
    ∀ (i : Nat) (ta tb : TaskC), d.child_tasks[i]? = some ta →
      d.child_tasks[i + 1]? = some tb →
      d.edges[i]? = some (ta.ref, tb.ref) := by
  obtain ⟨acc, hv, ha, -⟩ := action_get_ok_facts hp h
  rw [visitStmts_seq calls hres] at hv
  injection hv with hv
  have hacc : acc = { tasks := freshTasks ns calls 0,
                      task_list := (freshTasks ns calls 0).map .single,
                      ctr := 0 + calls.length } := hv.symm
  subst hacc
  subst ha
  simp only [buildAction, buildRunbook, List.head?_cons, Option.some.injEq,
    RBTask.dagT.injEq] at hd
  subst hd
  refine ⟨rfl, ?_, ?_, ?_, ?_⟩
  · exact freshTasks_length hres 0
  · simp only [buildDag, buildRunbook, buildAction, List.length_cons,
      List.length_map]
    rw [freshTasks_length hres 0]
  · show (mkEdges ((freshTasks ns calls 0).map .single)).length = calls.length - 1
    rw [mkEdges_singles, pairEdges_length, freshTasks_length hres 0]
  · intro i ta tb hta htb
    show (mkEdges ((freshTasks ns calls 0).map .single))[i]? = some (ta.ref, tb.ref)
    rw [mkEdges_singles]
    exact pairEdges_get _ i hta htb

theorem c1_witness :
    act1W.runbook.tasks = .dagT d1W :: d1W.child_tasks.map .taskT ∧
    d1W.child_tasks.length = 3 ∧
    act1W.runbook.tasks.length = 3 + 1 ∧
    d1W.edges.length = 3 - 1 ∧
    ∀ (i : Nat) (ta tb : TaskC), d1W.child_tasks[i]? = some ta →
      d1W.child_tasks[i + 1]? = some tb →
      d1W.edges[i]? = some (ta.ref, tb.ref) := by
  have h : action_get {} nsAllW
      (["a", "b", "c"].map fun c => Stmt.simple (.call c)) s0W =
      (.ok act1W, st1W) := by rfl
  exact c1_sequential_compilation {} nsAllW ["a", "b", "c"] s0W act1W st1W d1W
    (by decide) rfl h rfl

/-! ### Lemmas for the parallel-stage claims (C5, C6) -/

theorem flatMap_map_singleton (ts : List TaskC) (g : TaskC → Nat × Nat) :
    (ts.flatMap fun t => [g t]) = ts.map g := by
  induction ts with
  | nil => rfl
  | cons a r ih => simp [ih]

theorem visitPList_resolved {ns : String → Option Factory} (ps : List PStmt)
    (h : ∀ p ∈ ps, (ns p.callee).isSome) (n : Nat)
    (vars : List (String × Variable)) :
    ∃ vs, visitPList ns ps n vars =
      .ok (freshTasks ns (ps.map (·.callee)) n, vs, n + ps.length) := by
  induction ps generalizing n vars with
  | nil => exact ⟨vars, by simp [visitPList, freshTasks]⟩
  | cons p ps ih =>
    obtain ⟨f, hf⟩ := Option.isSome_iff_exists.mp (h p (by simp))
    obtain ⟨vs, hvs⟩ := ih (fun q hq => h q (by simp [hq])) (n + 1)
      (recordVar vars p (mkTask f n))
    refine ⟨vs, ?_⟩
    have harith : n + 1 + ps.length = n + (ps.length + 1) := by omega
    simp only [visitPList, resolveCall, hf, hvs, List.map_cons, freshTasks,
      List.singleton_append, List.length_cons, harith]

theorem visitPList_bounds {ns : String → Option Factory} (ps : List PStmt)
    (n : Nat) (vars : List (String × Variable)) {ts : List TaskC}
    {vs : List (String × Variable)} {m : Nat}
    (h : visitPList ns ps n vars = .ok (ts, vs, m)) :
    n ≤ m ∧ ∀ t ∈ ts, n ≤ t.ref ∧ t.ref < m := by
  induction ps generalizing n vars ts vs m with
  | nil =>
    simp only [visitPList, Except.ok.injEq, Prod.mk.injEq] at h
    obtain ⟨h1, h2, h3⟩ := h
    subst h1
    subst h3
    exact ⟨le_refl _, by simp⟩
  | cons p ps ih =>
    cases hr : resolveCall ns p.callee n with
    | error e =>
      simp only [visitPList, hr] at h
      exact Except.noConfusion h
    | ok t =>
      cases hrec : visitPList ns ps (n + 1) (recordVar vars p t) with
      | error e =>
        simp only [visitPList, hr, hrec] at h
        exact Except.noConfusion h
      | ok res =>
        obtain ⟨ts2, vs2, m2⟩ := res
        simp only [visitPList, hr, hrec, Except.ok.injEq, Prod.mk.injEq] at h
        obtain ⟨h1, h2, h3⟩ := h
        subst h1
        subst h3
        obtain ⟨hm, hb⟩ := ih (n + 1) (recordVar vars p t) hrec
        have ht : t.ref = n := resolveCall_ok_ref hr
        refine ⟨by omega, ?_⟩
        intro u hu
        rcases List.mem_cons.mp hu with rfl | hu'
        · omega
        · have := hb u hu'
          omega

theorem visitInv_push {acc : VisitAcc} (hInv : VisitInv acc) (st : Stage)
    (m : Nat) (hlo : ∀ t ∈ stageTasks st, acc.ctr ≤ t.ref)
    (hhi : ∀ t ∈ stageTasks st, t.ref < m) (hm : acc.ctr ≤ m)
    (vs : List (String × Variable)) :
    VisitInv { acc with
               tasks := acc.tasks ++ stageTasks st
               «variables» := vs
               task_list := acc.task_list ++ [st]
               ctr := m } := by
  constructor
  · intro st' hst' t ht
    rcases List.mem_append.mp hst' with h1 | h1
    · exact List.mem_append.mpr (.inl (hInv.mem st' h1 t ht))
    · simp only [List.mem_singleton] at h1
      subst h1
      exact List.mem_append.mpr (.inr ht)
  · intro st' hst' t ht
    rcases List.mem_append.mp hst' with h1 | h1
    · exact lt_of_lt_of_le (hInv.bound st' h1 t ht) hm
    · simp only [List.mem_singleton] at h1
      subst h1
      exact hhi t ht
  · rw [List.pairwise_append]
    refine ⟨hInv.sorted, List.pairwise_singleton _ _, ?_⟩
    intro s₁ h₁ s₂ h₂ t ht u hu
    simp only [List.mem_singleton] at h₂
    subst h₂
    exact lt_of_lt_of_le (hInv.bound s₁ h₁ t ht) (hlo u hu)

theorem visitStmts_inv {ns : String → Option Factory} (body : List Stmt)
    (acc acc' : VisitAcc) (hInv : VisitInv acc)
    (h : visitStmts ns body acc = .ok acc') : VisitInv acc' := by
  induction body generalizing acc with
  | nil =>
    simp only [visitStmts, Except.ok.injEq] at h
    subst h
    exact hInv
  | cons stmt ss ih =>
    cases stmt with
    | simple p =>
      cases hr : resolveCall ns p.callee acc.ctr with
      | error e =>
        simp only [visitStmts, hr] at h
        exact Except.noConfusion h
      | ok t =>
        simp only [visitStmts, hr] at h
        have ht := resolveCall_ok_ref hr
        refine ih _ ?_ h
        exact visitInv_push hInv (.single t) (acc.ctr + 1)
          (by intro u hu
              simp only [stageTasks, List.mem_singleton] at hu
              subst hu
              omega)
          (by intro u hu
              simp only [stageTasks, List.mem_singleton] at hu
              subst hu
              omega)
          (Nat.le_succ _) (recordVar acc.«variables» p t)
    | parallel ps =>
      cases hr : visitPList ns ps acc.ctr acc.«variables» with
      | error e =>
        simp only [visitStmts, hr] at h
        exact Except.noConfusion h
      | ok res =>
        obtain ⟨ts, vs, m⟩ := res
        simp only [visitStmts, hr] at h
        obtain ⟨hm, hb⟩ := visitPList_bounds ps acc.ctr acc.«variables» hr
        refine ih _ ?_ h
        exact visitInv_push hInv (.par ts) m
          (fun u hu => (hb u hu).1) (fun u hu => (hb u hu).2) hm vs

theorem pairwise_zip_tail {l : List Stage} {p : Stage × Stage}
    (hp : p ∈ l.zip l.tail) (hs : l.Pairwise StageLT) : StageLT p.1 p.2 := by
  induction l with
  | nil => simp at hp
  | cons a rest ih =>
    cases rest with
    | nil => simp at hp
    | cons b r =>
      simp only [List.tail_cons, List.zip_cons_cons] at hp
      rcases List.mem_cons.mp hp with rfl | hp'
      · exact (List.pairwise_cons.mp hs).1 b (by simp)
      · exact ih (by simpa using hp') (List.pairwise_cons.mp hs).2

theorem zip_tail_mem {l : List Stage} {p : Stage × Stage}
    (hp : p ∈ l.zip l.tail) : p.1 ∈ l ∧ p.2 ∈ l := by
  obtain ⟨x, y⟩ := p
  obtain ⟨h1, h2⟩ := List.of_mem_zip hp
  constructor
  · exact h1
  · cases l with
    | nil => simp at h2
    | cons a rest => exact List.mem_cons_of_mem a h2

theorem mem_mkEdges {l : List Stage} {e : Nat × Nat} (he : e ∈ mkEdges l) :
    ∃ p ∈ l.zip l.tail, ∃ t ∈ stageTasks p.1, ∃ u ∈ stageTasks p.2,
      e = (t.ref, u.ref) := by
  simp only [mkEdges, List.mem_flatMap, List.mem_map] at he
  obtain ⟨p, hp, t, ht, u, hu, heq⟩ := he
  exact ⟨p, hp, t, ht, u, hu, heq.symm⟩

theorem mkEdges_endpoints {acc : VisitAcc} (hInv : VisitInv acc) :
    ∀ e ∈ mkEdges acc.task_list,
      ((∃ t ∈ acc.tasks, t.ref = e.1) ∧ (∃ u ∈ acc.tasks, u.ref = e.2)) ∧
        e.1 < e.2 := by
  intro e he
  obtain ⟨p, hp, t, ht, u, hu, rfl⟩ := mem_mkEdges he
  obtain ⟨hp1, hp2⟩ := zip_tail_mem hp
  exact ⟨⟨⟨t, hInv.mem _ hp1 t ht, rfl⟩, ⟨u, hInv.mem _ hp2 u hu, rfl⟩⟩,
    pairwise_zip_tail hp hInv.sorted t ht u hu⟩

theorem isPath_lt {edges : List (Nat × Nat)}
    (hmono : ∀ e ∈ edges, e.1 < e.2) :
    ∀ (l : List Nat) (x y : Nat), IsPath edges x l y → x < y := by
  intro l
  induction l with
  | nil =>
    intro x y h
    exact hmono (x, y) h
  | cons c cs ih =>
    intro x y h
    exact lt_trans (hmono (x, c) h.1) (ih c y h.2)

/-- C5: for a body of one call, then a parallel block of `K` statements,
then one call, edge inference emits exactly `2 K` edges — one from the
preceding task into each parallel member and one from each member into the
following task — and no edge between any two of the `K` parallel tasks. -/
theorem c5_parallel_edges (cls : ClsInfo) (ns : String → Option Factory)
    (aN cN : String) (ps : List PStmt) (s : ActionDescriptor) (a : ActionC)
    (s₁ : ActionDescriptor) (d : DagTask)
    (hra : (ns aN).isSome) (hrps : ∀ p ∈ ps, (ns p.callee).isSome)
    (hrc : (ns cN).isSome) (hp : s.__parsed__ = false)
    (h : action_get cls ns
      [.simple (.call aN), .parallel ps, .simple (.call cN)] s = (.ok a, s₁))
    (hd : a.runbook.tasks.head? = some (.dagT d)) :
    ∃ t0 pts t2, d.child_tasks = t0 :: (pts ++ [t2]) ∧
      pts.length = ps.length ∧
      d.edges.length = 2 * ps.length ∧
      (∀ p ∈ pts, (t0.ref, p.ref) ∈ d.edges ∧ (p.ref, t2.ref) ∈ d.edges) ∧
      (∀ p ∈ pts, ∀ q ∈ pts, (p.ref, q.ref) ∉ d.edges) := by
  obtain ⟨fa, hfa⟩ := Option.isSome_iff_exists.mp hra
  obtain ⟨fc, hfc⟩ := Option.isSome_iff_exists.mp hrc
  obtain ⟨acc, hv, ha, -⟩ := action_get_ok_facts hp h
  obtain ⟨vs, hvs⟩ := visitPList_resolved ps hrps 1 []
  have hc1 : (PStmt.call aN).callee = aN := rfl
  have hc2 : (PStmt.call cN).callee = cN := rfl
  simp only [visitStmts, hc1, hc2, resolveCall, hfa, hfc, hvs, recordVar,
    List.nil_append, Nat.zero_add, List.cons_append, List.append_assoc,
    List.singleton_append, Except.ok.injEq] at hv
  subst hv
  subst ha
  simp only [buildAction, buildRunbook, List.head?_cons, Option.some.injEq,
    RBTask.dagT.injEq] at hd
  subst hd
  have hcs : ∀ c ∈ ps.map (·.callee), (ns c).isSome := by
    intro c hc
    obtain ⟨p, hp', rfl⟩ := List.mem_map.mp hc
    exact hrps p hp'
  have hlen : (freshTasks ns (ps.map (·.callee)) 1).length = ps.length := by
    rw [freshTasks_length hcs 1, List.length_map]
  have hbounds := freshTasks_ref_bounds ns (ps.map (·.callee)) 1
  simp only [buildDag]
  rw [mkEdges_cons_cons, mkEdges_cons_cons, mkEdges_single_stage]
  simp only [stageTasks, List.flatMap_cons, List.flatMap_nil,
    List.map_singleton, flatMap_map_singleton, List.append_nil]
  refine ⟨mkTask fa 0, freshTasks ns (ps.map (·.callee)) 1,
    mkTask fc (1 + ps.length), rfl, hlen, ?_, ?_, ?_⟩
  · simp only [List.length_append, List.length_map, hlen]
    omega
  · intro p hp'
    constructor
    · exact List.mem_append.mpr (.inl (List.mem_map.mpr ⟨p, hp', rfl⟩))
    · exact List.mem_append.mpr (.inr (List.mem_map.mpr ⟨p, hp', rfl⟩))
  · intro p hp' q hq' hmem
    rcases List.mem_append.mp hmem with hin | hin
    · obtain ⟨tt, htt, heq⟩ := List.mem_map.mp hin
      have h1 : (mkTask fa 0).ref = p.ref := (Prod.mk.injEq _ _ _ _).mp heq |>.1
      have h2 : (mkTask fa 0).ref = 0 := rfl
      have h3 := (hbounds p hp').1
      omega
    · obtain ⟨tt, htt, heq⟩ := List.mem_map.mp hin
      have h1 : (mkTask fc (1 + ps.length)).ref = q.ref :=
        (Prod.mk.injEq _ _ _ _).mp heq |>.2
      have h2 : (mkTask fc (1 + ps.length)).ref = 1 + ps.length := rfl
      have h3 := (hbounds q hq').2
      rw [List.length_map] at h3
      omega

theorem c5_witness :
    ∃ t0 pts t2, d5W.child_tasks = t0 :: (pts ++ [t2]) ∧
      pts.length = 2 ∧
      d5W.edges.length = 2 * 2 ∧
      (∀ p ∈ pts, (t0.ref, p.ref) ∈ d5W.edges ∧ (p.ref, t2.ref) ∈ d5W.edges) ∧
      (∀ p ∈ pts, ∀ q ∈ pts, (p.ref, q.ref) ∉ d5W.edges) := by
  have h : action_get {} nsAllW body5W s0W = (.ok act5W, st5W) := by rfl
  exact c5_parallel_edges {} nsAllW "a" "d" [.call "b", .call "c"] s0W act5W
    st5W d5W (by decide) (by decide) (by decide) rfl h rfl

/-- C6: for every successfully compiled body, the assembled DAG's edges
reference only tasks of its task set, and the edge relation is acyclic:
every edge goes from an earlier stage to the immediately following one, so
no path returns to its starting reference. -/
theorem c6_dag_invariant (cls : ClsInfo) (ns : String → Option Factory)
    (body : List Stmt) (s : ActionDescriptor) (a : ActionC)
    (s₁ : ActionDescriptor) (d : DagTask)
    (hp : s.__parsed__ = false)
    (h : action_get cls ns body s = (.ok a, s₁))
    (hd : a.runbook.tasks.head? = some (.dagT d)) :
    (∀ e ∈ d.edges, (∃ t ∈ d.child_tasks, t.ref = e.1) ∧
      (∃ u ∈ d.child_tasks, u.ref = e.2)) ∧
    ∀ (x : Nat) (l : List Nat), ¬ IsPath d.edges x l x := by
  obtain ⟨acc, hv, ha, -⟩ := action_get_ok_facts hp h
  have hInv : VisitInv acc :=
    visitStmts_inv body {} acc ⟨by simp, by simp, by simp⟩ hv
  subst ha
  simp only [buildAction, buildRunbook, List.head?_cons, Option.some.injEq,
    RBTask.dagT.injEq] at hd
  subst hd
  have hmain := mkEdges_endpoints hInv
  constructor
  · intro e he
    exact (hmain e he).1
  · intro x l hpath
    have hmono : ∀ e ∈ mkEdges acc.task_list, e.1 < e.2 :=
      fun e he => (hmain e he).2
    have := isPath_lt hmono l x x hpath
    omega

theorem c6_witness :
    (∀ e ∈ d6W.edges, (∃ t ∈ d6W.child_tasks, t.ref = e.1) ∧
      (∃ u ∈ d6W.child_tasks, u.ref = e.2)) ∧
    ∀ (x : Nat) (l : List Nat), ¬ IsPath d6W.edges x l x := by
  have h : action_get {} nsAllW body6W s0W = (.ok act6W, st6W) := by rfl
  exact c6_dag_invariant {} nsAllW body6W s0W act6W st6W d6W rfl h rfl

end CalmDSL
